import Mathlib

/-!
Verification development for the batch CSV translation orchestrator
(`index.js`).  The JavaScript source is shallowly embedded: rows are
association lists from column name to cell text, the external translation
provider is a function parameter returning `Except`, and every fallible
JavaScript function (anything that can `throw`) is modelled as an
`Except String` computation.  External collaborators (CSV codec in fill
mode, HTTP file fetcher, the OpenAI client behind `translateTextBatch`)
appear only through their contracts, as function parameters.
-/

set_option autoImplicit false

/-- JavaScript `String.prototype.trim` over the character list: drop
whitespace from both ends.  (Restricted to ASCII whitespace, which covers
every string this development evaluates.) -/
def trimChars (l : List Char) : List Char :=
  ((l.dropWhile Char.isWhitespace).reverse.dropWhile Char.isWhitespace).reverse

/-- JavaScript `s.trim()`. -/
def jsTrim (s : String) : String := String.mk (trimChars s.data)

/-- JavaScript `s.toLowerCase()` (ASCII case folding, which covers the
supported language names). -/
def jsToLower (s : String) : String := String.mk (s.data.map Char.toLower)

/-- Splitting a character list at every occurrence of `sep`;  `acc` holds
the current token reversed.  `[] ↦ [[]]`, like JavaScript `split`. -/
def splitCharAux (sep : Char) : List Char → List Char → List (List Char)
  | acc, [] => [acc.reverse]
  | acc, x :: xs =>
    if x == sep then acc.reverse :: splitCharAux sep [] xs
    else splitCharAux sep (x :: acc) xs

/-- JavaScript `s.split(sep)` for a one-character separator (the source
only ever splits on `'\n'` and `','`). -/
def jsSplit (sep : Char) (s : String) : List String :=
  (splitCharAux sep [] s.data).map String.mk

/-- Cell emptiness test used throughout `index.js`: a cell counts as blank
when it is the empty string or whitespace-only.  The source writes
`!row[col] || row[col].trim() === ''`; since a string with non-blank trim is
necessarily non-empty, this is equivalent to `trim == ""`. -/
def isBlank (s : String) : Bool := jsTrim s == ""

/-- A parsed CSV row in fill mode: the object produced by `csv-parser`,
i.e. an ordered mapping from column name (header) to cell text.
JavaScript objects iterate string keys in insertion order, so an
association list is the faithful denotation. -/
abbrev Row := List (String × String)

/-- `Object.keys(row)` (line 185): the column names in order. -/
def rowKeys (row : Row) : List String := row.map (fun p => p.1)

/-- `row[col]`: cell lookup.  Keys iterated always come from the object
itself, so the default is never observed through `rowKeys`. -/
def getCell (row : Row) (c : String) : String :=
  ((row.find? (fun p => p.1 == c)).map (fun p => p.2)).getD ""

/-- The supported language list of `validateLanguageCode` (lines 347-363),
verbatim. -/
def supportedLanguages : List String :=
  ["English", "Spanish", "French", "German", "Chinese", "Japanese",
   "Korean", "Russian", "Arabic", "Portuguese", "Italian", "Dutch",
   "Greek", "Hebrew", "Hindi", "Norwegian", "Polish", "Swedish",
   "Turkish", "Vietnamese", "Thai", "Indonesian", "Malay", "Bengali",
   "Punjabi", "Tamil", "Telugu", "Marathi", "Gujarati", "Kannada",
   "Urdu", "Persian", "Ukrainian", "Romanian", "Hungarian", "Czech",
   "Slovak", "Bulgarian", "Croatian", "Serbian", "Finnish", "Danish",
   "Icelandic", "Filipino", "Swahili", "Zulu", "Afrikaans", "Amharic",
   "Yoruba", "Hausa", "Igbo", "Burmese", "Khmer", "Lao", "Sinhala",
   "Nepali", "Pashto", "Somali", "Tigrinya", "Mongolian", "Kazakh",
   "Uzbek", "Tajik", "Kyrgyz", "Turkmen", "Azerbaijani", "Georgian",
   "Armenian", "Albanian", "Bosnian", "Macedonian", "Montenegrin",
   "Slovenian", "Latvian", "Lithuanian", "Estonian", "Maltese",
   "Luxembourgish", "Welsh", "Irish", "Scottish Gaelic", "Breton",
   "Basque", "Galician", "Catalan", "Occitan", "Corsican", "Sardinian"]

/-- `validateLanguageCode` (lines 346-367): case- and edge-whitespace-
insensitive membership in the supported list; throws on failure. -/
def validateLanguageCode (lang : String) : Except String Unit :=
  if (supportedLanguages.map (fun language => jsTrim (jsToLower language))).contains
      (jsTrim (jsToLower lang))
  then Except.ok ()
  else Except.error ("Unsupported language code: " ++ lang)

/-- A translation request as pushed in `processFile` (lines 196-201).
Whole-table mode (line 300) creates objects carrying only `text`; there the
unused fields are filled with `0` / `""`. -/
structure TranslationRequest where
  rowIndex : Nat
  sourceLang : String
  targetLang : String
  text : String
  deriving DecidableEq, Repr

/-- A provider result `{original_text, translated_text}` (schema lines
92-99). -/
structure TranslationResult where
  original_text : String
  translated_text : String
  deriving DecidableEq, Repr

/-- `columns.find((col) => col !== targetLang && row[col] && row[col].trim() !== '')`
(lines 188-190): first other column with a non-blank value. -/
def findSourceCol (row : Row) (targetLang : String) : Option String :=
  (rowKeys row).find? (fun col => col != targetLang && !(isBlank (getCell row col)))

/-- Inner loop of request building in `processFile` (lines 186-204), over the
remaining column names of one row.  The language validation of source and
target (lines 193-194) throws out of the whole run on an unsupported name. -/
def rowFillRequestsFrom (i : Nat) (row : Row) :
    List String → Except String (List TranslationRequest)
  | [] => Except.ok []
  | c :: cs =>
    if isBlank (getCell row c) then
      match findSourceCol row c with
      | some s => do
          validateLanguageCode s
          validateLanguageCode c
          let rest ← rowFillRequestsFrom i row cs
          pure (⟨i, s, c, getCell row s⟩ :: rest)
      | none => rowFillRequestsFrom i row cs
    else rowFillRequestsFrom i row cs

/-- Outer loop of request building in `processFile` (lines 184-205), starting
at row index `i`. -/
def buildFillRequestsFrom : Nat → List Row → Except String (List TranslationRequest)
  | _, [] => Except.ok []
  | i, row :: rest => do
      let rs ← rowFillRequestsFrom i row (rowKeys row)
      let more ← buildFillRequestsFrom (i + 1) rest
      pure (rs ++ more)

/-- The full fill-mode request list of `processFile` (lines 182-205). -/
def buildFillRequests (rows : List Row) : Except String (List TranslationRequest) :=
  buildFillRequestsFrom 0 rows

/-- Validation-free denotation of the inner request-building loop: the
requests `rowFillRequestsFrom` produces whenever it succeeds. -/
def rowFillPureFrom (i : Nat) (row : Row) : List String → List TranslationRequest
  | [] => []
  | c :: cs =>
    (if isBlank (getCell row c) then
      match findSourceCol row c with
      | some s => [⟨i, s, c, getCell row s⟩]
      | none => []
     else []) ++ rowFillPureFrom i row cs

/-- Validation-free denotation of the outer request-building loop. -/
def fillPure : Nat → List Row → List TranslationRequest
  | _, [] => []
  | i, row :: rest => rowFillPureFrom i row (rowKeys row) ++ fillPure (i + 1) rest

/-- The qualifying cells of the fill-mode builder: positions `(rowIndex,
columnName)` whose cell is blank and whose row has a non-blank other
column.  One translation request is pushed per such cell (lines 186-204). -/
def qualifyingCells : Nat → List Row → List (Nat × String)
  | _, [] => []
  | i, row :: rest =>
      (((rowKeys row).filter
          (fun c => isBlank (getCell row c) && (findSourceCol row c).isSome)).map
        (fun c => (i, c))) ++ qualifyingCells (i + 1) rest

/-- Insertion step of a JavaScript `Set` over a list accumulator: `Set.add`
keeps the first occurrence and ignores re-insertions. -/
def dedupInsert {α : Type} [DecidableEq α] (acc : List α) (x : α) : List α :=
  if x ∈ acc then acc else acc ++ [x]

/-- Iteration-ordered content of a JavaScript `Set` fed the elements of `l`
in order (`textsSet` of lines 286-293): distinct elements, first occurrences
first. -/
def setDedup {α : Type} [DecidableEq α] (l : List α) : List α :=
  l.foldl dedupInsert []

/-- Fuelled recursion for `specDedup`; the fuel dominates the list length
at every call, so the `0, _ :: _` branch is never taken. -/
def specDedupFuel {α : Type} [DecidableEq α] : Nat → List α → List α
  | _, [] => []
  | 0, _ :: _ => []
  | fuel + 1, x :: xs => x :: specDedupFuel fuel (xs.filter (fun y => decide (y ≠ x)))

/-- Modelled from the spec: "the set of *distinct* non-empty cell texts
across the entire table (order of first occurrence)".  Direct recursive
first-occurrence deduplication, to be compared with the `Set`-based
`setDedup` of the source. -/
def specDedup {α : Type} [DecidableEq α] (l : List α) : List α :=
  specDedupFuel l.length l

/-- The `(sourceLang, targetLang)` key of a request.  The source keys its
buckets by the string `sourceLang + "-" + targetLang` (line 215) and later
recovers the pair with `split('-')` (line 224); since every language name
accepted by `validateLanguageCode` is hyphen-free, that string key is in
bijection with the pair, so the embedding groups by the pair directly. -/
def reqKey (r : TranslationRequest) : String × String := (r.sourceLang, r.targetLang)

/-- `requestsByLangPair` (lines 210-220) as iterated by `Object.entries`
(line 223): buckets keyed by language pair, keys in first-seen order, each
bucket holding its requests in discovery order.  Incremental bucket pushing
over a JavaScript object denotes exactly this keys-then-filter form. -/
def groupByLangPair (reqs : List TranslationRequest) :
    List ((String × String) × List TranslationRequest) :=
  (setDedup (reqs.map reqKey)).map
    (fun k => (k, reqs.filter (fun r => decide (reqKey r = k))))

/-- Contract of the external Translation Provider (`translateTextBatch`,
lines 59-116): given source language, target language and the batch texts,
returns the `{original_text, translated_text}` array or fails. -/
abbrev Provider := String → String → List String → Except String (List TranslationResult)

/-- `MAX_BATCH_SIZE` (line 16), default value. -/
def MAX_BATCH_SIZE : Nat := 10

/-- `MAX_CONCURRENCY_REQ` (line 17), default value. -/
def MAX_CONCURRENCY_REQ : Nat := 100

/-- Fuelled recursion for `sliceBatches`; the fuel dominates the list
length at every call, so the `0, _ :: _` branch is never taken. -/
def sliceBatchesFuel {α : Type} (n : Nat) : Nat → List α → List (List α)
  | _, [] => []
  | 0, _ :: _ => []
  | fuel + 1, x :: xs =>
    if n = 0 then [] else (x :: xs).take n :: sliceBatchesFuel n fuel ((x :: xs).drop n)

/-- The batching loop `for (let i = 0; i < requests.length; i += MAX_BATCH_SIZE)
{ requests.slice(i, i + MAX_BATCH_SIZE) ... }` (lines 130-144): consecutive
slices of size at most `n`.  The `n = 0` case (unreachable: the constant is
positive) is cut off to keep the recursion total. -/
def sliceBatches {α : Type} (n : Nat) (l : List α) : List (List α) :=
  sliceBatchesFuel n l.length l

/-- Fail-fast sequencing of a list of independent `Except` computations:
the denotation of `await Promise.all` over already-determined outcomes
(all results kept in order, any rejection rejects the whole). -/
def mapExcept {α β : Type} (f : α → Except String β) : List α → Except String (List β)
  | [] => Except.ok []
  | x :: xs => do
      let y ← f x
      let ys ← mapExcept f xs
      pure (y :: ys)

/-- `prepareAndExecuteTranslations` (lines 125-164): slice the request list
into batches, call the provider once per batch with the batch's texts, and
flatten all per-batch results in batch order into `allTranslations`. -/
def prepareAndExecuteTranslations (provider : Provider)
    (requests : List TranslationRequest) (sourceLang targetLang : String) :
    Except String (List TranslationResult) := do
  let results ← mapExcept
    (fun batch => provider sourceLang targetLang (batch.map (fun r => r.text)))
    (sliceBatches MAX_BATCH_SIZE requests)
  pure results.flatten

/-- JavaScript assignment `row[key] = v`: replaces the value of an existing
key in place, appends a new key at the end. -/
def setVal (row : Row) (t v : String) : Row :=
  if row.any (fun p => p.1 == t) then
    row.map (fun p => if p.1 == t then (p.1, v) else p)
  else row ++ [(t, v)]

/-- `rows[rowIndex][targetLang] = translatedText` (line 238). -/
def setCell (rs : List Row) (i : Nat) (t v : String) : List Row :=
  match rs[i]? with
  | some row => rs.set i (setVal row t v)
  | none => rs

/-- The cell of table `rs` at row index `i`, column `t`. -/
def cellAt (rs : List Row) (i : Nat) (t : String) : String :=
  getCell ((rs[i]?).getD []) t

/-- Body of the per-request update loop of `processFile` (lines 233-239):
`translations.find(...)?.translated_text` followed by the truthiness-guarded
assignment `if (translatedText) rows[rowIndex][targetLang] = translatedText`.
An undefined (no match) or empty translated text leaves the rows alone. -/
def applyStep (ts : List TranslationResult) (rs : List Row)
    (r : TranslationRequest) : List Row :=
  match ts.find? (fun tr => tr.original_text == r.text) with
  | some tr =>
      if tr.translated_text == "" then rs
      else setCell rs r.rowIndex r.targetLang tr.translated_text
  | none => rs

/-- The per-group update loop of `processFile` (lines 232-240): apply
`applyStep` to every request of the group in order. -/
def applyTranslations (rs : List Row) (reqs : List TranslationRequest)
    (ts : List TranslationResult) : List Row :=
  reqs.foldl (applyStep ts) rs

/-- The sequential `for ... of Object.entries(requestsByLangPair)` loop of
`processFile` (lines 223-243): each language pair's batches are dispatched
and awaited, then the rows are updated, before the next pair starts. -/
def processGroups (provider : Provider) :
    List ((String × String) × List TranslationRequest) → List Row →
    Except String (List Row)
  | [], rs => Except.ok rs
  | (k, greqs) :: rest, rs => do
      let ts ← prepareAndExecuteTranslations provider greqs k.1 k.2
      processGroups provider rest (applyTranslations rs greqs ts)

/-- `processFile` (lines 172-263) after CSV parsing (the parse itself is the
external tabular codec) and before CSV serialization and base64 encoding:
empty-table check, request building, grouping, sequential per-pair
translation, and row updates.  Returns the final rows handed to
`writeCsvData`. -/
def processFileRows (provider : Provider) (rows : List Row) (fileName : String) :
    Except String (List Row) :=
  if rows.isEmpty then Except.error ("The CSV file " ++ fileName ++ " is empty.")
  else do
    let reqs ← buildFillRequests rows
    if reqs.isEmpty then pure rows
    else processGroups provider (groupByLangPair reqs) rows

/-- Whole-table parsing (line 277): `csvData.split('\n').map(row =>
row.split(','))`.  No header handling, no quote handling, no trimming. -/
def parseCsvLoose (csvData : String) : List (List String) :=
  (jsSplit '\n' csvData).map (fun row => jsSplit ',' row)

/-- `textsSet` / `texts` of `translateCsvToLanguage` (lines 286-295): the
distinct cell texts, in row-major first-occurrence order, restricted to
cells that are truthy with non-blank trim. -/
def wholeTableTexts (rows : List (List String)) : List String :=
  setDedup (rows.flatten.filter (fun cell => !(isBlank cell)))

/-- `translationRequests = texts.map((text) => ({ text }))` (line 300): one
request per distinct text.  Only the `text` field exists on the JavaScript
object; the remaining fields are placeholders never read downstream. -/
def wholeTableRequests (rows : List (List String)) : List TranslationRequest :=
  (wholeTableTexts rows).map (fun text => ⟨0, "", "", text⟩)

/-- `translationMap` (lines 310-313): a JavaScript `Map` built with `set`,
so a later result for the same `original_text` overwrites an earlier one. -/
def buildTranslationMap (ts : List TranslationResult) : List (String × String) :=
  ts.foldl (fun m tr => setVal m tr.original_text tr.translated_text) []

/-- `translationMap.get(k)` as an option. -/
def mapGet (m : List (String × String)) (k : String) : Option String :=
  (m.find? (fun p => p.1 == k)).map (fun p => p.2)

/-- Cell rewriting `translationMap.get(cell) || cell` (line 318): the mapped
translation when it exists and is truthy (non-empty), else the original
cell. -/
def applyMapCell (m : List (String × String)) (cell : String) : String :=
  match mapGet m cell with
  | some v => if v == "" then cell else v
  | none => cell

/-- `translateCsvToLanguage` (lines 271-340) from the parsed rows on:
empty check (lines 279-281), distinct-text extraction, one call tree with
source language hardcoded to "any language" (line 305), map building, and
cell-wise reconstruction (lines 317-319). -/
def translateParsedRows (provider : Provider) (fileName lang : String)
    (rows : List (List String)) : Except String (List (List String)) :=
  if rows.isEmpty then Except.error ("The CSV file " ++ fileName ++ " is empty.")
  else do
    let ts ← prepareAndExecuteTranslations provider (wholeTableRequests rows)
      "any language" lang
    let m := buildTranslationMap ts
    pure (rows.map (fun row => row.map (applyMapCell m)))

/-- `translateCsvToLanguage` (lines 271-340) end to end on the raw CSV
string: validate the target language (line 273), parse loosely (line 277),
translate, and serialize with `row.join(',')` / `join('\n')` (line 324).
The base64 encoding and file-name prefixing of the result envelope are
external to the orchestrator. -/
def translateCsvToLanguage (provider : Provider) (csvData fileName lang : String) :
    Except String String := do
  validateLanguageCode lang
  let out ← translateParsedRows provider fileName lang (parseCsvLoose csvData)
  pure (String.intercalate "\n" (out.map (fun r => String.intercalate "," r)))

/-- Success test for an `Except` outcome; `false` means the promise chain
rejected and no value was surfaced to the caller. -/
def isSuccess {ε α : Type} : Except ε α → Bool
  | Except.ok _ => true
  | Except.error _ => false

/-- Update rule of one request during reassembly (lines 233-239): the first
matching result's `translated_text` when non-empty, else the old cell. -/
def matchRule (ts : List TranslationResult) (txt old : String) : String :=
  match ts.find? (fun tr => tr.original_text == txt) with
  | some tr => if tr.translated_text == "" then old else tr.translated_text
  | none => old

/-- Start/finish events of provider calls dispatched through a `p-limit`
pool; the event trace of one pool's lifetime. -/
inductive LimEv
  | start
  | finish
  deriving DecidableEq, Repr

/-- Net number of in-flight calls after a trace, starting from `c`. -/
def netAfter : Nat → List LimEv → Nat
  | c, [] => c
  | c, LimEv.start :: rest => netAfter (c + 1) rest
  | c, LimEv.finish :: rest => netAfter (c - 1) rest

/-- Modelled from the spec: the permit-pool contract of the dispatcher
(§4.4, backed by the external `p-limit` package, not part of this
repository): a call may start only while fewer than `n` calls are in
flight, and only in-flight calls finish. -/
def traceAdmissible (n : Nat) : Nat → List LimEv → Bool
  | _, [] => true
  | c, LimEv.start :: rest => decide (c < n) && traceAdmissible n (c + 1) rest
  | c, LimEv.finish :: rest => decide (0 < c) && traceAdmissible n (c - 1) rest

/-- Number of distinct `pLimit` pools created while processing one parsed
table in fill mode: `prepareAndExecuteTranslations` creates a fresh pool on
every invocation (`const limit = pLimit(MAX_CONCURRENCY_REQ)`, line 128),
and `processFile` invokes it once per language-pair group (lines 223-230);
no pool is created when no requests exist or building fails earlier. -/
def processFileLimiterInstances (rows : List Row) : Nat :=
  match buildFillRequests rows with
  | Except.error _ => 0
  | Except.ok reqs => if reqs.isEmpty then 0 else (groupByLangPair reqs).length

/-- A file reference from the request body (README payload format). -/
structure FileRef where
  name : String
  download_link : String
  deriving DecidableEq, Repr

/-- The `openaiFileIdRefs` field of the request body: either not an array
at all (absent, null, or non-array JSON) or an array of file refs. -/
inductive RefsField
  | notArray
  | array (refs : List FileRef)
  deriving DecidableEq, Repr

/-- The parsed JSON request body destructured on line 376. -/
structure ReqBody where
  openaiFileIdRefs : RefsField
  language : Option String

/-- Per-file result envelope: the translated table of either mode (the
base64/mime wrapping is uniform and external). -/
inductive ModeOut
  | fill (rows : List Row)
  | whole (csv : String)
  deriving DecidableEq, Repr

/-- HTTP response body: either the success payload `{openaiFileResponse}`
or the failure payload `{error: message}`. -/
inductive RespBody
  | files (outs : List ModeOut)
  | err (msg : String)
  deriving DecidableEq, Repr

/-- An HTTP response of `translateHandler`. -/
structure HttpResponse where
  status : Nat
  body : RespBody
  deriving DecidableEq, Repr

/-- JavaScript truthiness of the `language` parameter (line 391): absent or
empty string selects fill mode. -/
def truthyLang : Option String → Option String
  | none => none
  | some l => if l == "" then none else some l

/-- Per-file processing inside `translateHandler` (lines 383-392): download
(the fetch plus `response.ok` check collapse into the external fetcher
contract), then mode dispatch on the truthiness of `language`.
`parseCsvData` is the external fill-mode CSV codec (lines 25-34). -/
def processOneFile (parseCsvData : String → Except String (List Row))
    (fetcher : FileRef → Except String String) (provider : Provider)
    (language : Option String) (fr : FileRef) : Except String ModeOut := do
  let csvData ← fetcher fr
  match truthyLang language with
  | some lang => ModeOut.whole <$> translateCsvToLanguage provider csvData fr.name lang
  | none => do
      let rows ← parseCsvData csvData
      ModeOut.fill <$> processFileRows provider rows fr.name

/-- `error.message || 'Internal Server Error'` (line 397). -/
def fallbackMsg (e : String) : String := if e == "" then "Internal Server Error" else e

/-- `translateHandler` (lines 374-399): 400 on a missing/non-array/empty
`openaiFileIdRefs`, otherwise all files processed under `Promise.all`
(fail-fast), with any thrown error caught and answered as a 500 with
`{error: message}`. -/
def translateHandler (parseCsvData : String → Except String (List Row))
    (fetcher : FileRef → Except String String) (provider : Provider)
    (body : ReqBody) : HttpResponse :=
  match body.openaiFileIdRefs with
  | RefsField.notArray =>
      ⟨400, RespBody.err "Invalid or empty \"openaiFileIdRefs\" array."⟩
  | RefsField.array [] =>
      ⟨400, RespBody.err "Invalid or empty \"openaiFileIdRefs\" array."⟩
  | RefsField.array refs =>
      match mapExcept (processOneFile parseCsvData fetcher provider body.language) refs with
      | Except.ok files => ⟨200, RespBody.files files⟩
      | Except.error e => ⟨500, RespBody.err (fallbackMsg e)⟩

/-- A provider that echoes every text back as its own translation; used to
instantiate theorems at concrete inputs. -/
def okProvider : Provider :=
  fun _ _ texts => Except.ok (texts.map (fun t => ⟨t, t⟩))

/-- A provider that always rejects, as a concrete failing batch call. -/
def failProvider : Provider := fun _ _ _ => Except.error "provider down"

/-- A provider that returns the empty string as every translation. -/
def emptyTransProvider : Provider :=
  fun _ _ texts => Except.ok (texts.map (fun t => ⟨t, ""⟩))

/-- Characterization of a fill-mode translation request: the target column's
cell in its row is blank, the source column is the first other column with a
non-blank value (`findSourceCol`), and the text is that source cell. -/
def isFillRequestFor (rows : List Row) (r : TranslationRequest) : Prop :=
  ∃ row, rows[r.rowIndex]? = some row ∧
    r.targetLang ∈ rowKeys row ∧
    isBlank (getCell row r.targetLang) = true ∧
    findSourceCol row r.targetLang = some r.sourceLang ∧
    r.text = getCell row r.sourceLang

/-! ## Deduplication lemmas -/

theorem specDedupFuel_congr {α : Type} [DecidableEq α] :
    ∀ f1 f2 (l : List α), l.length ≤ f1 → l.length ≤ f2 →
      specDedupFuel f1 l = specDedupFuel f2 l := by
  intro f1
  induction f1 with
  | zero =>
    intro f2 l h1 _
    have hl : l = [] := List.length_eq_zero.mp (Nat.le_zero.mp h1)
    subst hl
    cases f2 <;> rfl
  | succ f ih =>
    intro f2 l h1 h2
    cases l with
    | nil => cases f2 <;> rfl
    | cons x xs =>
      cases f2 with
      | zero => simp at h2
      | succ f2p =>
        simp only [specDedupFuel]
        congr 1
        exact ih f2p _
          (le_trans (List.length_filter_le _ _) (Nat.le_of_succ_le_succ h1))
          (le_trans (List.length_filter_le _ _) (Nat.le_of_succ_le_succ h2))

theorem specDedup_nil {α : Type} [DecidableEq α] : specDedup ([] : List α) = [] := rfl

theorem specDedup_cons {α : Type} [DecidableEq α] (x : α) (xs : List α) :
    specDedup (x :: xs) = x :: specDedup (xs.filter (fun y => decide (y ≠ x))) := by
  show specDedupFuel (x :: xs).length (x :: xs) = _
  simp only [List.length_cons, specDedupFuel]
  congr 1
  exact specDedupFuel_congr _ _ _ (List.length_filter_le _ _) (le_refl _)

theorem mem_specDedupFuel {α : Type} [DecidableEq α] (a : α) :
    ∀ fuel (l : List α), l.length ≤ fuel → (a ∈ specDedupFuel fuel l ↔ a ∈ l) := by
  intro fuel
  induction fuel with
  | zero =>
    intro l h1
    have hl : l = [] := List.length_eq_zero.mp (Nat.le_zero.mp h1)
    subst hl
    simp [specDedupFuel]
  | succ f ih =>
    intro l h1
    cases l with
    | nil => simp [specDedupFuel]
    | cons x xs =>
      simp only [specDedupFuel, List.mem_cons]
      rw [ih _ (le_trans (List.length_filter_le _ _) (Nat.le_of_succ_le_succ h1))]
      simp only [List.mem_filter, decide_eq_true_eq]
      constructor
      · rintro (rfl | ⟨hmem, _⟩)
        · exact Or.inl rfl
        · exact Or.inr hmem
      · rintro (rfl | hmem)
        · exact Or.inl rfl
        · by_cases hax : a = x
          · exact Or.inl hax
          · exact Or.inr ⟨hmem, hax⟩

theorem mem_specDedup {α : Type} [DecidableEq α] (a : α) (l : List α) :
    a ∈ specDedup l ↔ a ∈ l :=
  mem_specDedupFuel a l.length l (le_refl _)

theorem specDedupFuel_nodup {α : Type} [DecidableEq α] :
    ∀ fuel (l : List α), l.length ≤ fuel → (specDedupFuel fuel l).Nodup := by
  intro fuel
  induction fuel with
  | zero =>
    intro l h1
    have hl : l = [] := List.length_eq_zero.mp (Nat.le_zero.mp h1)
    subst hl
    simp [specDedupFuel]
  | succ f ih =>
    intro l h1
    cases l with
    | nil => simp [specDedupFuel]
    | cons x xs =>
      have hlen : (xs.filter (fun y => decide (y ≠ x))).length ≤ f :=
        le_trans (List.length_filter_le _ _) (Nat.le_of_succ_le_succ h1)
      simp only [specDedupFuel, List.nodup_cons]
      refine ⟨?_, ih _ hlen⟩
      intro hx
      have := (mem_specDedupFuel x f _ hlen).mp hx
      simp [List.mem_filter] at this

theorem specDedup_nodup {α : Type} [DecidableEq α] (l : List α) :
    (specDedup l).Nodup :=
  specDedupFuel_nodup l.length l (le_refl _)

theorem foldl_dedupInsert {α : Type} [DecidableEq α] :
    ∀ (l acc : List α),
      l.foldl dedupInsert acc = acc ++ specDedup (l.filter (fun y => decide (y ∉ acc))) := by
  intro l
  induction l with
  | nil => intro acc; simp [specDedup_nil]
  | cons x xs ih =>
    intro acc
    simp only [List.foldl_cons]
    by_cases hx : x ∈ acc
    · rw [ih (dedupInsert acc x)]
      have hd : dedupInsert acc x = acc := by simp [dedupInsert, hx]
      rw [hd]
      have hf : (x :: xs).filter (fun y => decide (y ∉ acc)) =
          xs.filter (fun y => decide (y ∉ acc)) := by
        simp [List.filter_cons, hx]
      rw [hf]
    · have hd : dedupInsert acc x = acc ++ [x] := by simp [dedupInsert, hx]
      rw [ih (dedupInsert acc x), hd]
      have hf : (x :: xs).filter (fun y => decide (y ∉ acc)) =
          x :: xs.filter (fun y => decide (y ∉ acc)) := by
        simp [List.filter_cons, hx]
      rw [hf, specDedup_cons]
      rw [List.filter_filter]
      have hcong : xs.filter (fun y => decide (y ≠ x) && decide (y ∉ acc)) =
          xs.filter (fun y => decide (y ∉ acc ++ [x])) := by
        apply List.filter_congr
        intro y _
        by_cases hyx : y = x
        · simp [List.mem_append, hyx]
        · by_cases hya : y ∈ acc
          · simp [List.mem_append, hyx, hya]
          · simp [List.mem_append, hyx, hya]
      rw [hcong]
      simp [List.append_assoc]

theorem setDedup_eq_specDedup {α : Type} [DecidableEq α] (l : List α) :
    setDedup l = specDedup l := by
  show l.foldl dedupInsert [] = specDedup l
  rw [foldl_dedupInsert l []]
  simp

theorem mem_setDedup {α : Type} [DecidableEq α] (a : α) (l : List α) :
    a ∈ setDedup l ↔ a ∈ l := by
  rw [setDedup_eq_specDedup]; exact mem_specDedup a l

theorem setDedup_nodup {α : Type} [DecidableEq α] (l : List α) :
    (setDedup l).Nodup := by
  rw [setDedup_eq_specDedup]; exact specDedup_nodup l

/-! ## Batching lemmas -/

theorem sliceBatchesFuel_flatten {α : Type} (n : Nat) (hn : 0 < n) :
    ∀ fuel (l : List α), l.length ≤ fuel → (sliceBatchesFuel n fuel l).flatten = l := by
  intro fuel
  induction fuel with
  | zero =>
    intro l h1
    have hl : l = [] := List.length_eq_zero.mp (Nat.le_zero.mp h1)
    subst hl
    rfl
  | succ f ih =>
    intro l h1
    cases l with
    | nil => rfl
    | cons x xs =>
      have hne : ¬ n = 0 := Nat.pos_iff_ne_zero.mp hn
      simp only [sliceBatchesFuel, if_neg hne, List.flatten_cons]
      rw [ih ((x :: xs).drop n) ?_]
      · exact List.take_append_drop n (x :: xs)
      · simp only [List.length_drop, List.length_cons]
        simp only [List.length_cons] at h1
        omega

theorem sliceBatchesFuel_size {α : Type} (n : Nat) :
    ∀ fuel (l : List α), ∀ b ∈ sliceBatchesFuel n fuel l, b.length ≤ n := by
  intro fuel
  induction fuel with
  | zero =>
    intro l b hb
    cases l <;> simp [sliceBatchesFuel] at hb
  | succ f ih =>
    intro l b hb
    cases l with
    | nil => simp [sliceBatchesFuel] at hb
    | cons x xs =>
      by_cases hne : n = 0
      · simp [sliceBatchesFuel, hne] at hb
      · simp only [sliceBatchesFuel, if_neg hne, List.mem_cons] at hb
        rcases hb with rfl | hb
        · exact List.length_take_le n _
        · exact ih _ b hb

theorem sliceBatches_flatten {α : Type} (n : Nat) (hn : 0 < n) (l : List α) :
    (sliceBatches n l).flatten = l :=
  sliceBatchesFuel_flatten n hn l.length l (le_refl _)

theorem sliceBatches_size {α : Type} (n : Nat) (l : List α) :
    ∀ b ∈ sliceBatches n l, b.length ≤ n :=
  sliceBatchesFuel_size n l.length l

/-! ## Cell update lemmas -/

theorem getCell_setVal_self (row : Row) (t v : String) :
    getCell (setVal row t v) t = v := by
  unfold setVal
  by_cases h : row.any (fun p => p.1 == t)
  · simp only [if_pos h]
    induction row with
    | nil => simp at h
    | cons p rest ih =>
      by_cases hp : p.1 == t
      · simp [getCell, List.find?, hp]
      · simp only [List.any_cons, hp, Bool.false_or] at h
        simp only [List.map_cons, if_neg (by simpa using hp)]
        simpa [getCell, List.find?, hp] using ih h
  · simp only [if_neg h]
    have hnone : row.find? (fun p => p.1 == t) = none := by
      rw [List.find?_eq_none]
      intro p hp
      intro hpt
      exact h (List.any_of_mem hp hpt)
    simp [getCell, List.find?_append, hnone, List.find?]

theorem getCell_map_replace (t v u : String) (h : u ≠ t) :
    ∀ row : Row,
      getCell (row.map (fun p => if p.1 == t then (p.1, v) else p)) u = getCell row u := by
  intro row
  induction row with
  | nil => rfl
  | cons p rest ih =>
    by_cases hpu : p.1 == u
    · have hpt : (p.1 == t) = false := by
        have : p.1 = u := by simpa using hpu
        subst this
        simpa using h
      simp [getCell, List.find?, hpt, hpu]
    · by_cases hpt : p.1 == t
      · simpa [getCell, List.find?, hpt, hpu] using ih
      · simpa [getCell, List.find?, hpt, hpu] using ih

theorem getCell_setVal_ne (row : Row) (t v u : String) (h : u ≠ t) :
    getCell (setVal row t v) u = getCell row u := by
  unfold setVal
  by_cases hany : row.any (fun p => p.1 == t)
  · simp only [if_pos hany]
    exact getCell_map_replace t v u h row
  · simp only [if_neg hany]
    unfold getCell
    rw [List.find?_append]
    cases hf : row.find? (fun p => p.1 == u) with
    | some p => simp
    | none =>
      have : (t == u) = false := by
        simp only [beq_eq_false_iff_ne, ne_eq]
        intro ht
        exact h ht.symm
      simp [List.find?, this]

theorem length_setCell (rs : List Row) (i : Nat) (t v : String) :
    (setCell rs i t v).length = rs.length := by
  unfold setCell
  cases h : rs[i]? with
  | some row => simp
  | none => rfl

theorem cellAt_setCell_self (rs : List Row) (i : Nat) (t v : String)
    (h : i < rs.length) : cellAt (setCell rs i t v) i t = v := by
  unfold setCell cellAt
  have hi : rs[i]? = some rs[i] := List.getElem?_eq_getElem h
  rw [hi]
  simp only [List.getElem?_set_self h]
  simp [getCell_setVal_self]

theorem cellAt_setCell_ne (rs : List Row) (i : Nat) (t v : String) (j : Nat)
    (u : String) (h : ¬(i = j ∧ t = u)) :
    cellAt (setCell rs i t v) j u = cellAt rs j u := by
  unfold setCell cellAt
  cases hi : rs[i]? with
  | none => rfl
  | some row =>
    by_cases hij : i = j
    · subst hij
      have htu : u ≠ t := by
        intro hut
        exact h ⟨rfl, hut.symm⟩
      have hlt : i < rs.length := by
        by_contra hge
        rw [List.getElem?_eq_none (Nat.le_of_not_lt hge)] at hi
        cases hi
      simp only [List.getElem?_set_self hlt, hi]
      simp only [Option.getD_some]
      exact getCell_setVal_ne row t v u htu
    · rw [List.getElem?_set_ne hij]

/-! ## Except plumbing lemmas -/

@[simp] theorem except_bind_ok {ε α β : Type} (a : α) (f : α → Except ε β) :
    ((Except.ok a : Except ε α) >>= f) = f a := rfl

@[simp] theorem except_bind_error {ε α β : Type} (e : ε) (f : α → Except ε β) :
    ((Except.error e : Except ε α) >>= f) = Except.error e := rfl

@[simp] theorem except_map_ok {ε α β : Type} (g : α → β) (a : α) :
    (g <$> (Except.ok a : Except ε α)) = Except.ok (g a) := rfl

@[simp] theorem except_map_error {ε α β : Type} (g : α → β) (e : ε) :
    (g <$> (Except.error e : Except ε α)) = Except.error e := rfl

@[simp] theorem except_pure_eq {ε α : Type} (a : α) :
    (pure a : Except ε α) = Except.ok a := rfl

theorem mapExcept_error_of_mem {α β : Type} (f : α → Except String β) (l : List α)
    (x : α) (hx : x ∈ l) (e : String) (hf : f x = Except.error e) :
    ∃ e2, mapExcept f l = Except.error e2 := by
  induction l with
  | nil => cases hx
  | cons y ys ih =>
    cases hy : f y with
    | error ey => exact ⟨ey, by simp [mapExcept, hy]⟩
    | ok b =>
      rcases List.mem_cons.mp hx with rfl | hmem
      · rw [hy] at hf; cases hf
      · rcases ih hmem with ⟨e2, he2⟩
        refine ⟨e2, ?_⟩
        simp only [mapExcept, hy, he2]
        rfl

theorem mapExcept_ok_length {α β : Type} (f : α → Except String β) :
    ∀ (l : List α) (bs : List β), mapExcept f l = Except.ok bs → bs.length = l.length := by
  intro l
  induction l with
  | nil =>
    intro bs h
    cases h
    rfl
  | cons y ys ih =>
    intro bs h
    cases hy : f y with
    | error ey => simp [mapExcept, hy] at h
    | ok b =>
      cases hys : mapExcept f ys with
      | error e2 => simp [mapExcept, hy, hys] at h
      | ok rest =>
        simp only [mapExcept, hy, hys] at h
        cases h
        simp [ih rest hys]


/-! ## Reassembly lemmas -/

theorem applyStep_none (ts : List TranslationResult) (rs : List Row)
    (r : TranslationRequest)
    (hf : ts.find? (fun tr => tr.original_text == r.text) = none) :
    applyStep ts rs r = rs := by
  simp [applyStep, hf]

theorem applyStep_some_empty (ts : List TranslationResult) (rs : List Row)
    (r : TranslationRequest) (tr : TranslationResult)
    (hf : ts.find? (fun tr => tr.original_text == r.text) = some tr)
    (he : tr.translated_text = "") :
    applyStep ts rs r = rs := by
  simp [applyStep, hf, he]

theorem applyStep_some_set (ts : List TranslationResult) (rs : List Row)
    (r : TranslationRequest) (tr : TranslationResult)
    (hf : ts.find? (fun tr => tr.original_text == r.text) = some tr)
    (he : ¬ tr.translated_text = "") :
    applyStep ts rs r = setCell rs r.rowIndex r.targetLang tr.translated_text := by
  simp [applyStep, hf, he]

theorem matchRule_none (ts : List TranslationResult) (txt old : String)
    (hf : ts.find? (fun tr => tr.original_text == txt) = none) :
    matchRule ts txt old = old := by
  simp [matchRule, hf]

theorem matchRule_some_empty (ts : List TranslationResult) (txt old : String)
    (tr : TranslationResult)
    (hf : ts.find? (fun tr => tr.original_text == txt) = some tr)
    (he : tr.translated_text = "") :
    matchRule ts txt old = old := by
  simp [matchRule, hf, he]

theorem matchRule_some_set (ts : List TranslationResult) (txt old : String)
    (tr : TranslationResult)
    (hf : ts.find? (fun tr => tr.original_text == txt) = some tr)
    (he : ¬ tr.translated_text = "") :
    matchRule ts txt old = tr.translated_text := by
  simp [matchRule, hf, he]

theorem applyStep_length (ts : List TranslationResult) (rs : List Row)
    (r : TranslationRequest) : (applyStep ts rs r).length = rs.length := by
  cases hf : ts.find? (fun tr => tr.original_text == r.text) with
  | none => rw [applyStep_none ts rs r hf]
  | some tr =>
    by_cases he : tr.translated_text = ""
    · rw [applyStep_some_empty ts rs r tr hf he]
    · rw [applyStep_some_set ts rs r tr hf he]
      exact length_setCell rs r.rowIndex r.targetLang tr.translated_text

theorem cellAt_applyStep_ne (ts : List TranslationResult) (rs : List Row)
    (r : TranslationRequest) (i : Nat) (t : String)
    (h : ¬(r.rowIndex = i ∧ r.targetLang = t)) :
    cellAt (applyStep ts rs r) i t = cellAt rs i t := by
  cases hf : ts.find? (fun tr => tr.original_text == r.text) with
  | none => rw [applyStep_none ts rs r hf]
  | some tr =>
    by_cases he : tr.translated_text = ""
    · rw [applyStep_some_empty ts rs r tr hf he]
    · rw [applyStep_some_set ts rs r tr hf he]
      exact cellAt_setCell_ne rs r.rowIndex r.targetLang tr.translated_text i t h

theorem cellAt_applyStep_self (ts : List TranslationResult) (rs : List Row)
    (r : TranslationRequest) (hi : r.rowIndex < rs.length) :
    cellAt (applyStep ts rs r) r.rowIndex r.targetLang =
      matchRule ts r.text (cellAt rs r.rowIndex r.targetLang) := by
  cases hf : ts.find? (fun tr => tr.original_text == r.text) with
  | none => rw [applyStep_none ts rs r hf, matchRule_none ts _ _ hf]
  | some tr =>
    by_cases he : tr.translated_text = ""
    · rw [applyStep_some_empty ts rs r tr hf he, matchRule_some_empty ts _ _ tr hf he]
    · rw [applyStep_some_set ts rs r tr hf he, matchRule_some_set ts _ _ tr hf he]
      exact cellAt_setCell_self rs r.rowIndex r.targetLang tr.translated_text hi

theorem applyTranslations_nil (rs : List Row) (ts : List TranslationResult) :
    applyTranslations rs [] ts = rs := rfl

theorem applyTranslations_cons (rs : List Row) (r : TranslationRequest)
    (rest : List TranslationRequest) (ts : List TranslationResult) :
    applyTranslations rs (r :: rest) ts =
      applyTranslations (applyStep ts rs r) rest ts := by
  unfold applyTranslations
  rw [List.foldl_cons]

theorem applyTranslations_length (reqs : List TranslationRequest) :
    ∀ (rs : List Row) (ts : List TranslationResult),
      (applyTranslations rs reqs ts).length = rs.length := by
  induction reqs with
  | nil => intro rs ts; rfl
  | cons r rest ih =>
    intro rs ts
    rw [applyTranslations_cons, ih, applyStep_length]

theorem cellAt_applyTranslations_notin (reqs : List TranslationRequest) :
    ∀ (rs : List Row) (ts : List TranslationResult) (i : Nat) (t : String),
      (∀ r ∈ reqs, ¬(r.rowIndex = i ∧ r.targetLang = t)) →
      cellAt (applyTranslations rs reqs ts) i t = cellAt rs i t := by
  induction reqs with
  | nil => intro rs ts i t _; rfl
  | cons r rest ih =>
    intro rs ts i t h
    rw [applyTranslations_cons]
    rw [ih _ ts i t (fun x hx => h x (List.mem_cons_of_mem r hx))]
    exact cellAt_applyStep_ne ts rs r i t (h r (List.mem_cons_self r rest))

theorem cellAt_applyTranslations_self (reqs : List TranslationRequest) :
    ∀ (rs : List Row) (ts : List TranslationResult) (r : TranslationRequest),
      r ∈ reqs →
      (reqs.map (fun x => (x.rowIndex, x.targetLang))).Nodup →
      r.rowIndex < rs.length →
      cellAt (applyTranslations rs reqs ts) r.rowIndex r.targetLang =
        matchRule ts r.text (cellAt rs r.rowIndex r.targetLang) := by
  induction reqs with
  | nil => intro rs ts r hr; cases hr
  | cons x rest ih =>
    intro rs ts r hr hnd hi
    simp only [List.map_cons, List.nodup_cons] at hnd
    obtain ⟨hxnotin, hndrest⟩ := hnd
    rw [applyTranslations_cons]
    rcases List.mem_cons.mp hr with rfl | hmem
    · have hrestne : ∀ r2 ∈ rest,
          ¬(r2.rowIndex = r.rowIndex ∧ r2.targetLang = r.targetLang) := by
        intro r2 h2 hpair
        apply hxnotin
        have : (r.rowIndex, r.targetLang) = (r2.rowIndex, r2.targetLang) := by
          rw [hpair.1, hpair.2]
        rw [this]
        exact List.mem_map_of_mem _ h2
      rw [cellAt_applyTranslations_notin rest _ ts _ _ hrestne]
      exact cellAt_applyStep_self ts rs r hi
    · have hxpair : ¬(x.rowIndex = r.rowIndex ∧ x.targetLang = r.targetLang) := by
        intro hpair
        apply hxnotin
        have : (x.rowIndex, x.targetLang) = (r.rowIndex, r.targetLang) := by
          rw [hpair.1, hpair.2]
        rw [this]
        exact List.mem_map_of_mem _ hmem
      rw [ih _ ts r hmem hndrest (by rw [applyStep_length]; exact hi)]
      rw [cellAt_applyStep_ne ts rs x r.rowIndex r.targetLang hxpair]

theorem processGroups_fail_of_group (provider : Provider)
    (gs : List ((String × String) × List TranslationRequest)) :
    ∀ (rs : List Row) (g : (String × String) × List TranslationRequest),
      g ∈ gs →
      isSuccess (prepareAndExecuteTranslations provider g.2 g.1.1 g.1.2) = false →
      isSuccess (processGroups provider gs rs) = false := by
  induction gs with
  | nil => intro rs g hg; cases hg
  | cons h0 rest ih =>
    intro rs g hg hfail
    obtain ⟨k, greqs⟩ := h0
    cases hp : prepareAndExecuteTranslations provider greqs k.1 k.2 with
    | error e => simp [processGroups, hp, isSuccess]
    | ok ts =>
      rcases List.mem_cons.mp hg with rfl | hmem
      · rw [hp] at hfail
        simp [isSuccess] at hfail
      · simp only [processGroups, hp, except_bind_ok]
        exact ih _ g hmem hfail

theorem processGroups_append (provider : Provider)
    (A B : List ((String × String) × List TranslationRequest)) :
    ∀ rs : List Row,
      processGroups provider (A ++ B) rs =
        processGroups provider A rs >>= processGroups provider B := by
  induction A with
  | nil => intro rs; rfl
  | cons h0 rest ih =>
    intro rs
    obtain ⟨k, greqs⟩ := h0
    cases hp : prepareAndExecuteTranslations provider greqs k.1 k.2 with
    | error e => simp [processGroups, hp]
    | ok ts =>
      simp only [List.cons_append, processGroups, hp, except_bind_ok]
      exact ih _

theorem processGroups_ok_length (provider : Provider)
    (gs : List ((String × String) × List TranslationRequest)) :
    ∀ (rs out : List Row), processGroups provider gs rs = Except.ok out →
      out.length = rs.length := by
  induction gs with
  | nil =>
    intro rs out h
    cases h
    rfl
  | cons h0 rest ih =>
    intro rs out h
    obtain ⟨k, greqs⟩ := h0
    cases hp : prepareAndExecuteTranslations provider greqs k.1 k.2 with
    | error e => simp [processGroups, hp] at h
    | ok ts =>
      simp only [processGroups, hp, except_bind_ok] at h
      rw [ih _ out h]
      exact applyTranslations_length greqs rs ts

theorem cellAt_processGroups_notin (provider : Provider)
    (gs : List ((String × String) × List TranslationRequest)) :
    ∀ (rs out : List Row) (i : Nat) (t : String),
      (∀ g ∈ gs, ∀ r ∈ g.2, ¬(r.rowIndex = i ∧ r.targetLang = t)) →
      processGroups provider gs rs = Except.ok out →
      cellAt out i t = cellAt rs i t := by
  induction gs with
  | nil =>
    intro rs out i t _ h
    cases h
    rfl
  | cons h0 rest ih =>
    intro rs out i t hne h
    obtain ⟨k, greqs⟩ := h0
    cases hp : prepareAndExecuteTranslations provider greqs k.1 k.2 with
    | error e => simp [processGroups, hp] at h
    | ok ts =>
      simp only [processGroups, hp, except_bind_ok] at h
      rw [ih _ out i t (fun g hg => hne g (List.mem_cons_of_mem _ hg)) h]
      exact cellAt_applyTranslations_notin greqs rs ts i t
        (hne (k, greqs) (List.mem_cons_self _ _))

/-! ## Request builder lemmas -/

theorem rowFillRequestsFrom_ok (i : Nat) (row : Row) :
    ∀ (cs : List String) (reqs : List TranslationRequest),
      rowFillRequestsFrom i row cs = Except.ok reqs →
      reqs = rowFillPureFrom i row cs := by
  intro cs
  induction cs with
  | nil =>
    intro reqs h
    simp only [rowFillRequestsFrom] at h
    cases h
    rfl
  | cons c cs ih =>
    intro reqs h
    by_cases hb : isBlank (getCell row c)
    · cases hsrc : findSourceCol row c with
      | some s =>
        simp only [rowFillRequestsFrom, if_pos hb, hsrc] at h
        cases hv1 : validateLanguageCode s with
        | error e => rw [hv1] at h; simp at h
        | ok u1 =>
          cases hv2 : validateLanguageCode c with
          | error e => rw [hv1, hv2] at h; simp at h
          | ok u2 =>
            cases hrec : rowFillRequestsFrom i row cs with
            | error e => rw [hv1, hv2, hrec] at h; simp at h
            | ok rest =>
              rw [hv1, hv2, hrec] at h
              simp only [except_bind_ok, except_pure_eq] at h
              cases h
              simp only [rowFillPureFrom, if_pos hb, hsrc]
              rw [ih rest hrec]
              rfl
      | none =>
        simp only [rowFillRequestsFrom, if_pos hb, hsrc] at h
        simp only [rowFillPureFrom, if_pos hb, hsrc, List.nil_append]
        exact ih reqs h
    · simp only [rowFillRequestsFrom, if_neg hb] at h
      simp only [rowFillPureFrom, if_neg hb, List.nil_append]
      exact ih reqs h

theorem buildFillRequestsFrom_ok :
    ∀ (rows : List Row) (i : Nat) (reqs : List TranslationRequest),
      buildFillRequestsFrom i rows = Except.ok reqs → reqs = fillPure i rows := by
  intro rows
  induction rows with
  | nil =>
    intro i reqs h
    simp only [buildFillRequestsFrom] at h
    cases h
    rfl
  | cons row rest ih =>
    intro i reqs h
    simp only [buildFillRequestsFrom] at h
    cases hrow : rowFillRequestsFrom i row (rowKeys row) with
    | error e => rw [hrow] at h; simp at h
    | ok rs =>
      cases hrest : buildFillRequestsFrom (i + 1) rest with
      | error e => rw [hrow, hrest] at h; simp at h
      | ok more =>
        rw [hrow, hrest] at h
        simp only [except_bind_ok, except_pure_eq] at h
        cases h
        simp only [fillPure]
        rw [rowFillRequestsFrom_ok i row _ rs hrow, ih (i + 1) more hrest]

theorem buildFillRequests_ok (rows : List Row) (reqs : List TranslationRequest)
    (h : buildFillRequests rows = Except.ok reqs) : reqs = fillPure 0 rows :=
  buildFillRequestsFrom_ok rows 0 reqs h

theorem rowFillPureFrom_length (i : Nat) (row : Row) :
    ∀ cs : List String,
      (rowFillPureFrom i row cs).length =
        (cs.filter (fun c => isBlank (getCell row c) && (findSourceCol row c).isSome)).length := by
  intro cs
  induction cs with
  | nil => rfl
  | cons c cs ih =>
    by_cases hb : isBlank (getCell row c)
    · cases hsrc : findSourceCol row c with
      | some s =>
        simp only [rowFillPureFrom, if_pos hb, hsrc, List.filter_cons]
        simp [hb, hsrc, ih]
      | none =>
        simp only [rowFillPureFrom, if_pos hb, hsrc, List.filter_cons]
        simp [hb, hsrc, ih]
    · have hbf : isBlank (getCell row c) = false := by simpa using hb
      simp only [rowFillPureFrom, if_neg hb, List.filter_cons]
      simp [hbf, ih]

theorem fillPure_length :
    ∀ (rows : List Row) (i : Nat),
      (fillPure i rows).length = (qualifyingCells i rows).length := by
  intro rows
  induction rows with
  | nil => intro i; rfl
  | cons row rest ih =>
    intro i
    simp only [fillPure, qualifyingCells, List.length_append, List.length_map]
    rw [rowFillPureFrom_length, ih]

theorem mem_rowFillPureFrom (i : Nat) (row : Row) :
    ∀ (cs : List String) (r : TranslationRequest),
      r ∈ rowFillPureFrom i row cs ↔
        (r.rowIndex = i ∧ r.targetLang ∈ cs ∧
          isBlank (getCell row r.targetLang) = true ∧
          findSourceCol row r.targetLang = some r.sourceLang ∧
          r.text = getCell row r.sourceLang) := by
  intro cs
  induction cs with
  | nil => intro r; simp [rowFillPureFrom]
  | cons c cs ih =>
    intro r
    obtain ⟨ri, sl, tl, tx⟩ := r
    simp only [rowFillPureFrom, List.mem_append, ih, List.mem_cons]
    by_cases hb : isBlank (getCell row c)
    · cases hsrc : findSourceCol row c with
      | some s =>
        simp only [if_pos hb, hsrc, List.mem_singleton, TranslationRequest.mk.injEq]
        constructor
        · rintro (⟨rfl, rfl, rfl, rfl⟩ | ⟨rfl, htl, hbl, hfs, rfl⟩)
          · exact ⟨rfl, Or.inl rfl, hb, hsrc, rfl⟩
          · exact ⟨rfl, Or.inr htl, hbl, hfs, rfl⟩
        · rintro ⟨rfl, hc, hbl, hfs, rfl⟩
          rcases hc with rfl | htl
          · rw [hsrc] at hfs
            cases hfs
            exact Or.inl ⟨rfl, rfl, rfl, rfl⟩
          · exact Or.inr ⟨rfl, htl, hbl, hfs, rfl⟩
      | none =>
        simp only [if_pos hb, hsrc, List.not_mem_nil, false_or]
        constructor
        · rintro ⟨rfl, htl, hbl, hfs, rfl⟩
          exact ⟨rfl, Or.inr htl, hbl, hfs, rfl⟩
        · rintro ⟨rfl, hc, hbl, hfs, rfl⟩
          rcases hc with rfl | htl
          · rw [hsrc] at hfs
            cases hfs
          · exact ⟨rfl, htl, hbl, hfs, rfl⟩
    · simp only [if_neg hb, List.not_mem_nil, false_or]
      constructor
      · rintro ⟨rfl, htl, hbl, hfs, rfl⟩
        exact ⟨rfl, Or.inr htl, hbl, hfs, rfl⟩
      · rintro ⟨rfl, hc, hbl, hfs, rfl⟩
        rcases hc with rfl | htl
        · exact absurd hbl (by simpa using hb)
        · exact ⟨rfl, htl, hbl, hfs, rfl⟩

theorem mem_fillPure :
    ∀ (rows : List Row) (i : Nat) (r : TranslationRequest),
      r ∈ fillPure i rows ↔
        ∃ j row, rows[j]? = some row ∧ r.rowIndex = i + j ∧
          r.targetLang ∈ rowKeys row ∧
          isBlank (getCell row r.targetLang) = true ∧
          findSourceCol row r.targetLang = some r.sourceLang ∧
          r.text = getCell row r.sourceLang := by
  intro rows
  induction rows with
  | nil => intro i r; simp [fillPure]
  | cons row rest ih =>
    intro i r
    simp only [fillPure, List.mem_append, mem_rowFillPureFrom, ih]
    constructor
    · rintro (⟨hri, htl, hbl, hfs, htx⟩ | ⟨j, row2, hj, hri, htl, hbl, hfs, htx⟩)
      · exact ⟨0, row, by simp, by omega, htl, hbl, hfs, htx⟩
      · exact ⟨j + 1, row2, by simpa using hj, by omega, htl, hbl, hfs, htx⟩
    · rintro ⟨j, row2, hj, hri, htl, hbl, hfs, htx⟩
      cases j with
      | zero =>
        have hrow : row2 = row := by
          simp only [List.getElem?_cons_zero] at hj
          exact (Option.some.injEq _ _).mp hj.symm
        subst hrow
        exact Or.inl ⟨by omega, htl, hbl, hfs, htx⟩
      | succ jp =>
        exact Or.inr ⟨jp, row2, by simpa using hj, by omega, htl, hbl, hfs, htx⟩

theorem rowFillPureFrom_targets (i : Nat) (row : Row) :
    ∀ cs : List String,
      ((rowFillPureFrom i row cs).map (fun r => r.targetLang)).Sublist cs := by
  intro cs
  induction cs with
  | nil => simp [rowFillPureFrom]
  | cons c cs ih =>
    by_cases hb : isBlank (getCell row c)
    · cases hsrc : findSourceCol row c with
      | some s =>
        simp only [rowFillPureFrom, if_pos hb, hsrc, List.singleton_append,
          List.map_cons]
        exact List.Sublist.cons₂ c ih
      | none =>
        simp only [rowFillPureFrom, if_pos hb, hsrc, List.nil_append]
        exact List.Sublist.cons c ih
    · simp only [rowFillPureFrom, if_neg hb, List.nil_append]
      exact List.Sublist.cons c ih

theorem fillPure_pairs_nodup :
    ∀ (rows : List Row) (i : Nat),
      (∀ row ∈ rows, (rowKeys row).Nodup) →
      ((fillPure i rows).map (fun r => (r.rowIndex, r.targetLang))).Nodup := by
  intro rows
  induction rows with
  | nil => intro i _; simp [fillPure]
  | cons row rest ih =>
    intro i hkeys
    simp only [fillPure, List.map_append, List.nodup_append]
    refine ⟨?_, ih (i + 1) (fun w hw => hkeys w (List.mem_cons_of_mem row hw)), ?_⟩
    · have hmapeq :
          (rowFillPureFrom i row (rowKeys row)).map (fun r => (r.rowIndex, r.targetLang)) =
            ((rowFillPureFrom i row (rowKeys row)).map (fun r => r.targetLang)).map
              (fun tl => (i, tl)) := by
        rw [List.map_map]
        apply List.map_congr_left
        intro r hr
        have hri : r.rowIndex = i :=
          ((mem_rowFillPureFrom i row (rowKeys row) r).mp hr).1
        simp [hri]
      rw [hmapeq]
      apply List.Nodup.map
      · intro a b hab
        exact (Prod.mk.injEq i a i b).mp hab |>.2
      · exact List.Nodup.sublist (rowFillPureFrom_targets i row (rowKeys row))
          (hkeys row (List.mem_cons_self row rest))
    · intro p hp hp2
      rcases List.mem_map.mp hp with ⟨r, hr, rfl⟩
      rcases List.mem_map.mp hp2 with ⟨r2, hr2, hpair⟩
      have hri : r.rowIndex = i :=
        ((mem_rowFillPureFrom i row (rowKeys row) r).mp hr).1
      have hri2 : i + 1 ≤ r2.rowIndex := by
        rcases (mem_fillPure rest (i + 1) r2).mp hr2 with ⟨j, _, _, hj, _⟩
        omega
      have : r2.rowIndex = r.rowIndex := congrArg Prod.fst hpair
      omega

/-! ## Grouping lemmas -/

theorem groupByLangPair_elem (reqs : List TranslationRequest)
    (g : (String × String) × List TranslationRequest)
    (hg : g ∈ groupByLangPair reqs) :
    g.2 = reqs.filter (fun r => decide (reqKey r = g.1)) := by
  rcases List.mem_map.mp hg with ⟨k, _, rfl⟩
  rfl

theorem groupByLangPair_sub (reqs : List TranslationRequest)
    (g : (String × String) × List TranslationRequest)
    (hg : g ∈ groupByLangPair reqs) :
    ∀ r ∈ g.2, r ∈ reqs := by
  intro r hr
  rw [groupByLangPair_elem reqs g hg] at hr
  exact List.mem_of_mem_filter hr

theorem groupByLangPair_key_of_mem (reqs : List TranslationRequest)
    (g : (String × String) × List TranslationRequest)
    (hg : g ∈ groupByLangPair reqs) :
    ∀ r ∈ g.2, reqKey r = g.1 := by
  intro r hr
  rw [groupByLangPair_elem reqs g hg] at hr
  simpa using List.of_mem_filter hr

theorem groupByLangPair_split (reqs : List TranslationRequest)
    (r : TranslationRequest) (hr : r ∈ reqs) :
    ∃ A B, groupByLangPair reqs =
        A ++ (reqKey r, reqs.filter (fun x => decide (reqKey x = reqKey r))) :: B ∧
      (∀ g ∈ A, g.1 ≠ reqKey r) ∧ (∀ g ∈ B, g.1 ≠ reqKey r) := by
  have hk : reqKey r ∈ setDedup (reqs.map reqKey) :=
    (mem_setDedup _ _).mpr (List.mem_map_of_mem reqKey hr)
  rcases List.mem_iff_append.mp hk with ⟨s, t, hst⟩
  have hnd : (setDedup (reqs.map reqKey)).Nodup := setDedup_nodup _
  rw [hst] at hnd
  have hks : reqKey r ∉ s := by
    intro hmem
    rcases (List.nodup_append.mp hnd) with ⟨_, _, hdisj⟩
    exact hdisj hmem (List.mem_cons_self _ _)
  have hkt : reqKey r ∉ t := by
    rcases (List.nodup_append.mp hnd) with ⟨_, hct, _⟩
    exact (List.nodup_cons.mp hct).1
  refine ⟨s.map (fun k => (k, reqs.filter (fun x => decide (reqKey x = k)))),
    t.map (fun k => (k, reqs.filter (fun x => decide (reqKey x = k)))), ?_, ?_, ?_⟩
  · unfold groupByLangPair
    rw [hst, List.map_append, List.map_cons]
  · intro g hg
    rcases List.mem_map.mp hg with ⟨k, hkmem, rfl⟩
    intro hke
    simp only at hke
    rw [hke] at hkmem
    exact hks hkmem
  · intro g hg
    rcases List.mem_map.mp hg with ⟨k, hkmem, rfl⟩
    intro hke
    simp only at hke
    rw [hke] at hkmem
    exact hkt hkmem

/-! ## In-flight trace lemmas -/

theorem netAfter_append :
    ∀ (s t : List LimEv) (c : Nat), netAfter c (s ++ t) = netAfter (netAfter c s) t := by
  intro s
  induction s with
  | nil => intro t c; rfl
  | cons e rest ih =>
    intro t c
    cases e with
    | start => simpa [netAfter] using ih t (c + 1)
    | finish => simpa [netAfter] using ih t (c - 1)

theorem traceAdmissible_bound :
    ∀ (p : List LimEv) (n c : Nat) (q : List LimEv),
      traceAdmissible n c (p ++ q) = true → c ≤ n → netAfter c p ≤ n := by
  intro p
  induction p with
  | nil => intro n c q _ hc; exact hc
  | cons e rest ih =>
    intro n c q hadm hc
    cases e with
    | start =>
      simp only [List.cons_append, traceAdmissible, Bool.and_eq_true,
        decide_eq_true_eq] at hadm
      exact ih n (c + 1) q hadm.2 hadm.1
    | finish =>
      simp only [List.cons_append, traceAdmissible, Bool.and_eq_true,
        decide_eq_true_eq] at hadm
      exact ih n (c - 1) q hadm.2 (le_trans (Nat.sub_le c 1) hc)

theorem traces_flatten_bound :
    ∀ (segs : List (List LimEv)) (n : Nat),
      (∀ s ∈ segs, traceAdmissible n 0 s = true) →
      (∀ s ∈ segs, netAfter 0 s = 0) →
      ∀ p q, segs.flatten = p ++ q → netAfter 0 p ≤ n := by
  intro segs
  induction segs with
  | nil =>
    intro n _ _ p q h
    have hp : p = [] := (List.append_eq_nil.mp h.symm).1
    subst hp
    exact Nat.zero_le n
  | cons s rest ih =>
    intro n hadm hbal p q h
    simp only [List.flatten_cons] at h
    rcases List.append_eq_append_iff.mp h with ⟨a2, hp, hflat⟩ | ⟨c2, hs, hq⟩
    · subst hp
      rw [netAfter_append, hbal s (List.mem_cons_self _ _)]
      exact ih n (fun w hw => hadm w (List.mem_cons_of_mem _ hw))
        (fun w hw => hbal w (List.mem_cons_of_mem _ hw)) a2 q hflat
    · have hadm2 : traceAdmissible n 0 (p ++ c2) = true := by
        rw [← hs]
        exact hadm s (List.mem_cons_self _ _)
      exact traceAdmissible_bound p n 0 c2 hadm2 (Nat.zero_le n)

/-! ## Orchestration helper lemmas -/

theorem getCell_of_mem_keys (row : Row) (c : String) (hc : c ∈ rowKeys row) :
    ∃ p ∈ row, getCell row c = p.2 := by
  have hex : ∃ p ∈ row, (fun p : String × String => p.1 == c) p := by
    rcases List.mem_map.mp hc with ⟨p, hp, rfl⟩
    exact ⟨p, hp, by simp⟩
  rcases List.find?_isSome.mpr hex with h
  cases hfind : row.find? (fun p => p.1 == c) with
  | none => rw [hfind] at h; cases h
  | some q =>
    exact ⟨q, List.mem_of_find?_eq_some hfind, by simp [getCell, hfind]⟩

theorem rowFillRequestsFrom_all_nonblank (i : Nat) (row : Row) :
    ∀ cs : List String, (∀ c ∈ cs, isBlank (getCell row c) = false) →
      rowFillRequestsFrom i row cs = Except.ok [] := by
  intro cs
  induction cs with
  | nil => intro _; rfl
  | cons c cs ih =>
    intro h
    have hb : isBlank (getCell row c) = false := h c (List.mem_cons_self _ _)
    simp only [rowFillRequestsFrom, hb, Bool.false_eq_true, if_false]
    exact ih (fun w hw => h w (List.mem_cons_of_mem _ hw))

theorem buildFillRequestsFrom_all_nonblank :
    ∀ (rows : List Row) (i : Nat),
      (∀ row ∈ rows, ∀ p ∈ row, isBlank p.2 = false) →
      buildFillRequestsFrom i rows = Except.ok [] := by
  intro rows
  induction rows with
  | nil => intro i _; rfl
  | cons row rest ih =>
    intro i h
    have hrow : rowFillRequestsFrom i row (rowKeys row) = Except.ok [] := by
      apply rowFillRequestsFrom_all_nonblank
      intro c hc
      rcases getCell_of_mem_keys row c hc with ⟨p, hp, hcell⟩
      rw [hcell]
      exact h row (List.mem_cons_self _ _) p hp
    simp only [buildFillRequestsFrom, hrow, except_bind_ok]
    rw [ih (i + 1) (fun w hw => h w (List.mem_cons_of_mem _ hw))]
    rfl

theorem translateParsedRows_ok_shape (provider : Provider) (fileName lang : String)
    (rows : List (List String)) (ts : List TranslationResult)
    (out : List (List String))
    (hts : prepareAndExecuteTranslations provider (wholeTableRequests rows)
      "any language" lang = Except.ok ts)
    (hok : translateParsedRows provider fileName lang rows = Except.ok out) :
    out = rows.map (fun row => row.map (applyMapCell (buildTranslationMap ts))) := by
  unfold translateParsedRows at hok
  by_cases hre : rows.isEmpty
  · simp [hre] at hok
  · simp only [hre, Bool.false_eq_true, if_false, hts, except_bind_ok,
      except_pure_eq] at hok
    cases hok
    rfl

/-! ## Claim theorems -/

/-- C7: in both modes, a table with zero rows fails with the empty-input
error before any request is built and before any provider call is made: the
outcome is this fixed error for every provider, so no provider call can have
occurred (`processFile` lines 177-179, `translateCsvToLanguage` lines
279-281, the latter stated on the post-parse core since whole-table parsing
itself never yields an empty row list). -/
theorem c7_empty_input (provider : Provider) (fileName lang : String) :
    processFileRows provider [] fileName =
      Except.error ("The CSV file " ++ fileName ++ " is empty.") ∧
    translateParsedRows provider fileName lang [] =
      Except.error ("The CSV file " ++ fileName ++ " is empty.") :=
  ⟨rfl, rfl⟩

/-- C5: the batches of any language-pair group are consecutive slices whose
concatenation is exactly the group (nothing dropped, nothing duplicated,
order preserved) and each batch has at most `MAX_BATCH_SIZE` requests
(lines 130-144). -/
theorem c5_batching (reqs : List TranslationRequest) :
    (sliceBatches MAX_BATCH_SIZE reqs).flatten = reqs ∧
    ∀ b ∈ sliceBatches MAX_BATCH_SIZE reqs, b.length ≤ MAX_BATCH_SIZE :=
  ⟨sliceBatches_flatten MAX_BATCH_SIZE (by decide) reqs,
   sliceBatches_size MAX_BATCH_SIZE reqs⟩

/-- Witness for C5 at a concrete 12-request group: the flatten identity and
the size bound of the first batch. -/
theorem c5_batching_witness :
    (sliceBatches MAX_BATCH_SIZE
        ((List.range 12).map (fun k => ⟨k, "English", "French", "hello"⟩))).flatten =
      (List.range 12).map (fun k => (⟨k, "English", "French", "hello"⟩ : TranslationRequest)) ∧
    (((List.range 12).map
        (fun k => (⟨k, "English", "French", "hello"⟩ : TranslationRequest))).take 10).length ≤
      MAX_BATCH_SIZE :=
  ⟨(c5_batching _).1,
   (c5_batching ((List.range 12).map (fun k => ⟨k, "English", "French", "hello"⟩))).2
     (((List.range 12).map (fun k => ⟨k, "English", "French", "hello"⟩)).take 10)
     (by decide)⟩

/-- C3: fail-fast atomicity per table.  In fill mode, if the provider call of
any language-pair group fails, `processFile` fails and surfaces no row
output; in whole-table mode, if the single call tree fails,
`translateCsvToLanguage` fails and surfaces no output (lines 146, 226-230,
259-262, 303-307, 336-339). -/
theorem c3_fail_fast :
    (∀ (provider : Provider) (rows : List Row) (fileName : String)
       (reqs : List TranslationRequest),
       buildFillRequests rows = Except.ok reqs →
       ∀ g ∈ groupByLangPair reqs,
         isSuccess (prepareAndExecuteTranslations provider g.2 g.1.1 g.1.2) = false →
         isSuccess (processFileRows provider rows fileName) = false) ∧
    (∀ (provider : Provider) (csvData fileName lang : String),
       isSuccess (prepareAndExecuteTranslations provider
         (wholeTableRequests (parseCsvLoose csvData)) "any language" lang) = false →
       isSuccess (translateCsvToLanguage provider csvData fileName lang) = false) := by
  constructor
  · intro provider rows fileName reqs hb g hg hfail
    by_cases hempty : rows.isEmpty
    · simp [processFileRows, hempty, isSuccess]
    · by_cases hre : reqs.isEmpty
      · have : reqs = [] := List.isEmpty_iff.mp hre
        subst this
        simp [groupByLangPair, setDedup] at hg
      · simp only [processFileRows, hempty, Bool.false_eq_true, if_false, hb,
          except_bind_ok, hre]
        exact processGroups_fail_of_group provider (groupByLangPair reqs) rows g hg hfail
  · intro provider csvData fileName lang hfail
    cases hp : prepareAndExecuteTranslations provider
        (wholeTableRequests (parseCsvLoose csvData)) "any language" lang with
    | ok ts => rw [hp] at hfail; simp [isSuccess] at hfail
    | error e =>
      unfold translateCsvToLanguage
      cases hv : validateLanguageCode lang with
      | error e2 => simp [hv, isSuccess]
      | ok u =>
        simp only [hv, except_bind_ok]
        unfold translateParsedRows
        by_cases hpe : (parseCsvLoose csvData).isEmpty
        · simp [hpe, isSuccess]
        · simp [hpe, hp, isSuccess]

/-- Witness for C3: with an always-failing provider, a table holding one
translatable cell fails in fill mode, and whole-table translation of a
non-empty CSV fails as well. -/
theorem c3_fail_fast_witness :
    isSuccess (processFileRows failProvider
      [[("English", "hello"), ("French", "")]] "t.csv") = false ∧
    isSuccess (translateCsvToLanguage failProvider "cat" "t.csv" "French") = false :=
  ⟨c3_fail_fast.1 failProvider [[("English", "hello"), ("French", "")]] "t.csv"
      [⟨0, "English", "French", "hello"⟩] (by rfl)
      (("English", "French"), [⟨0, "English", "French", "hello"⟩]) (by decide)
      (by rfl),
   c3_fail_fast.2 failProvider "cat" "t.csv" "French" (by rfl)⟩

/-- Counterexample to C4 as stated: one fill-mode run over a single-row
table with two language pairs creates two `pLimit` pools — one per call to
`prepareAndExecuteTranslations` (line 128, invoked per pair at lines
223-230) — not a single global pool shared across all pairs. -/
theorem c4_single_pool_cex :
    processFileLimiterInstances
      [[("English", "hello"), ("French", ""), ("Spanish", "")]] = 2 ∧
    (2 : Nat) ≠ 1 :=
  ⟨by rfl, by decide⟩

/-- C4 (amended): every language-pair group gets its own permit pool of
size `MAX_CONCURRENCY_REQ`, and because `processFile` awaits each group
before starting the next, the dispatch trace of one table run is a
concatenation of per-group segments; under the pool's admission contract
(start only below capacity) every prefix of the run keeps at most
`MAX_CONCURRENCY_REQ` provider calls in flight. -/
theorem c4_inflight_bound (n : Nat) (rows : List Row)
    (reqs : List TranslationRequest) (segs : List (List LimEv))
    (_hb : buildFillRequests rows = Except.ok reqs)
    (_hlen : segs.length = (groupByLangPair reqs).length)
    (hadm : ∀ s ∈ segs, traceAdmissible n 0 s = true)
    (hbal : ∀ s ∈ segs, netAfter 0 s = 0) :
    ∀ p q, segs.flatten = p ++ q → netAfter 0 p ≤ n :=
  fun p q h => traces_flatten_bound segs n hadm hbal p q h

/-- Witness for C4 (amended) at the two-pair table, with one dispatched and
completed call per group and the prefix cut just after the first start. -/
theorem c4_inflight_bound_witness :
    netAfter 0 [LimEv.start] ≤ MAX_CONCURRENCY_REQ :=
  c4_inflight_bound MAX_CONCURRENCY_REQ
    [[("English", "hello"), ("French", ""), ("Spanish", "")]]
    [⟨0, "English", "French", "hello"⟩, ⟨0, "English", "Spanish", "hello"⟩]
    [[LimEv.start, LimEv.finish], [LimEv.start, LimEv.finish]]
    (by rfl) (by rfl) (by decide) (by decide)
    [LimEv.start] [LimEv.finish, LimEv.start, LimEv.finish] (by rfl)

/-- Counterexample to C8 as stated: the zero-row table vacuously has every
cell non-blank, yet `processFile` raises the empty-file error instead of
passing the table through to serialization. -/
theorem c8_idempotence_cex :
    (([] : List Row).all (fun row => row.all (fun p => !(isBlank p.2))) = true) ∧
    processFileRows okProvider [] "t.csv" =
      Except.error "The CSV file t.csv is empty." :=
  ⟨by rfl, by rfl⟩

/-- C8 (amended: restricted to tables with at least one row): a fully
populated table produces zero requests, the translation stage is skipped
(the outcome does not depend on the provider), and the rows are passed
through unchanged (lines 184-208, 246-258). -/
theorem c8_idempotence (rows : List Row) (fileName : String)
    (hne : rows ≠ [])
    (hfull : ∀ row ∈ rows, ∀ p ∈ row, isBlank p.2 = false) :
    buildFillRequests rows = Except.ok [] ∧
    ∀ provider : Provider, processFileRows provider rows fileName = Except.ok rows := by
  have hbuild : buildFillRequests rows = Except.ok [] :=
    buildFillRequestsFrom_all_nonblank rows 0 hfull
  refine ⟨hbuild, ?_⟩
  intro provider
  have hempty : rows.isEmpty = false := by
    cases rows with
    | nil => exact absurd rfl hne
    | cons r rest => rfl
  simp [processFileRows, hempty, hbuild]

/-- Witness for C8 (amended) at a concrete fully populated table. -/
theorem c8_idempotence_witness :
    buildFillRequests [[("English", "hi"), ("French", "bonjour")]] = Except.ok [] ∧
    processFileRows okProvider [[("English", "hi"), ("French", "bonjour")]] "t.csv" =
      Except.ok [[("English", "hi"), ("French", "bonjour")]] :=
  ⟨(c8_idempotence [[("English", "hi"), ("French", "bonjour")]] "t.csv" (by decide)
      (by decide)).1,
   (c8_idempotence [[("English", "hi"), ("French", "bonjour")]] "t.csv" (by decide)
      (by decide)).2 okProvider⟩

/-- Counterexample to C1 as stated: a whole-table cell that is non-empty but
whitespace-only (`" "`) is excluded by the code's `cell && cell.trim() !== ''`
guard, so no request is emitted for it even though it is a distinct
non-empty cell text (the spec-side first-occurrence dedup of the non-empty
texts retains it). -/
theorem c1_dedup_cex :
    wholeTableTexts [[" "]] = [] ∧
    wholeTableRequests [[" "]] = [] ∧
    specDedup ((List.flatten [[" "]]).filter (fun c => c != "")) = [" "] ∧
    ([" "] : List String) ≠ [] :=
  ⟨by rfl, by rfl, by rfl, by decide⟩

/-- C1 (amended: "non-empty" read as non-blank, i.e. non-whitespace-only):
whole-table mode emits exactly one request per distinct non-blank cell text
in row-major first-occurrence order (the `Set`-based extraction equals the
spec-side first-occurrence dedup and is duplicate-free), while fill mode
emits one request per qualifying cell, never collapsing duplicates — the
request count equals the qualifying-cell count even when texts repeat under
the same language pair. -/
theorem c1_dedup_asymmetry :
    (∀ rows : List (List String),
       wholeTableTexts rows =
         specDedup (rows.flatten.filter (fun c => !(isBlank c))) ∧
       (wholeTableTexts rows).Nodup ∧
       (wholeTableRequests rows).map (fun r => r.text) = wholeTableTexts rows) ∧
    (∀ (rows : List Row) (reqs : List TranslationRequest),
       buildFillRequests rows = Except.ok reqs →
       reqs.length = (qualifyingCells 0 rows).length) := by
  constructor
  · intro rows
    refine ⟨setDedup_eq_specDedup _, setDedup_nodup _, ?_⟩
    unfold wholeTableRequests
    rw [List.map_map]
    exact List.map_id _
  · intro rows reqs hb
    rw [buildFillRequests_ok rows reqs hb, fillPure_length]

/-- Witness for C1: the whole-table dedup identity on a table with a
repeated text, and the fill-mode count on a two-row table whose two
qualifying cells share the same text and the same language pair (two
requests, none collapsed). -/
theorem c1_dedup_asymmetry_witness :
    wholeTableTexts [["cat", "dog"], ["cat"]] =
      specDedup ((List.flatten [["cat", "dog"], ["cat"]]).filter
        (fun c => !(isBlank c))) ∧
    ([⟨0, "English", "French", "hello"⟩,
      (⟨1, "English", "French", "hello"⟩ : TranslationRequest)] : List TranslationRequest).length =
      (qualifyingCells 0
        [[("English", "hello"), ("French", "")],
         [("English", "hello"), ("French", "")]]).length :=
  ⟨(c1_dedup_asymmetry.1 [["cat", "dog"], ["cat"]]).1,
   c1_dedup_asymmetry.2
     [[("English", "hello"), ("French", "")], [("English", "hello"), ("French", "")]]
     [⟨0, "English", "French", "hello"⟩, ⟨1, "English", "French", "hello"⟩] (by rfl)⟩

/-- Counterexample to C2 as stated.  First part: for the blank cell of the
non-language column "id", the claim demands an emitted request with
targetLang "id" and sourceLang "English", but the run fails validation
instead, emitting nothing.  Second part: with row `English: " ", French: "",
Spanish: "x"`, the claim's "first other column whose cell is non-empty" for
target French is English (its cell `" "` is non-empty), yet the code skips
whitespace-only cells and picks Spanish, so the claimed request
`⟨0, English, French, " "⟩` is not among the emitted ones. -/
theorem c2_fill_request_cex :
    buildFillRequests [[("id", ""), ("English", "hi")]] =
      Except.error "Unsupported language code: id" ∧
    buildFillRequests [[("English", " "), ("French", ""), ("Spanish", "x")]] =
      Except.ok [⟨0, "Spanish", "English", "x"⟩, ⟨0, "Spanish", "French", "x"⟩] ∧
    (⟨0, "English", "French", " "⟩ : TranslationRequest) ∉
      ([⟨0, "Spanish", "English", "x"⟩, ⟨0, "Spanish", "French", "x"⟩] :
        List TranslationRequest) :=
  ⟨by rfl, by rfl, by decide⟩

/-- C2 (amended: the source column is the first other column with a
*non-blank* cell, and requests are only emitted when the whole build passes
language validation; a validation failure fails the run with no requests).
Whenever building succeeds, a request is emitted exactly for the qualifying
cells with the `findSourceCol` source and that source cell's text, and a
blank cell whose row has no non-blank sibling yields no request and is
left unchanged in any successful output. -/
theorem c2_fill_request_building (rows : List Row)
    (reqs : List TranslationRequest)
    (hb : buildFillRequests rows = Except.ok reqs) :
    (∀ r, r ∈ reqs ↔ isFillRequestFor rows r) ∧
    (∀ (i : Nat) (row : Row) (t : String),
       rows[i]? = some row → t ∈ rowKeys row →
       isBlank (getCell row t) = true → findSourceCol row t = none →
       (∀ r ∈ reqs, ¬(r.rowIndex = i ∧ r.targetLang = t)) ∧
       (∀ (provider : Provider) (fileName : String) (out : List Row),
          processFileRows provider rows fileName = Except.ok out →
          cellAt out i t = cellAt rows i t)) := by
  have hre : reqs = fillPure 0 rows := buildFillRequests_ok rows reqs hb
  have hmem : ∀ r, r ∈ reqs ↔ isFillRequestFor rows r := by
    intro r
    rw [hre, mem_fillPure rows 0 r]
    constructor
    · rintro ⟨j, row, hj, hji, hrest⟩
      refine ⟨row, ?_, hrest⟩
      rw [hji]
      simpa using hj
    · rintro ⟨row, hrow, hrest⟩
      exact ⟨r.rowIndex, row, hrow, by omega, hrest⟩
  refine ⟨hmem, ?_⟩
  intro i row t hrow ht hblank hnone
  have hnoreq : ∀ r ∈ reqs, ¬(r.rowIndex = i ∧ r.targetLang = t) := by
    intro r hr hpair
    rcases (hmem r).mp hr with ⟨row2, hrow2, _, _, hfs, _⟩
    rw [hpair.1, hrow] at hrow2
    have : row2 = row := by
      exact (Option.some.injEq _ _).mp hrow2.symm
    subst this
    rw [hpair.2, hnone] at hfs
    cases hfs
  refine ⟨hnoreq, ?_⟩
  intro provider fileName out hok
  have hempty : rows.isEmpty = false := by
    cases rows with
    | nil => simp at hrow
    | cons w ws => rfl
  simp only [processFileRows, hempty, Bool.false_eq_true, if_false, hb,
    except_bind_ok] at hok
  by_cases hreqe : reqs.isEmpty
  · simp only [hreqe, if_true, except_pure_eq] at hok
    cases hok
    rfl
  · simp only [hreqe, Bool.false_eq_true, if_false] at hok
    exact cellAt_processGroups_notin provider (groupByLangPair reqs) rows out i t
      (fun g hg x hx => hnoreq x (groupByLangPair_sub reqs g hg x hx)) hok

/-- Witness for C2 (amended) at a concrete table: the emitted request for
the blank French cell satisfies the per-cell characterization. -/
theorem c2_fill_request_building_witness :
    isFillRequestFor [[("English", "hello"), ("French", "")]]
      ⟨0, "English", "French", "hello"⟩ :=
  ((c2_fill_request_building [[("English", "hello"), ("French", "")]]
      [⟨0, "English", "French", "hello"⟩] (by rfl)).1
    ⟨0, "English", "French", "hello"⟩).mp (by decide)

/-- Counterexample to C6 as stated: in fill mode, the first (only) matching
result for the request over the blank-but-whitespace French cell carries
`translated_text = ""`; the claim demands the cell be set to that empty
string, but the truthiness guard `if (translatedText)` (line 237) skips the
write and the cell keeps its original `" "`. -/
theorem c6_reassembly_cex :
    processFileRows emptyTransProvider [[("English", "hello"), ("French", " ")]]
      "t.csv" = Except.ok [[("English", "hello"), ("French", " ")]] ∧
    prepareAndExecuteTranslations emptyTransProvider
      [⟨0, "English", "French", "hello"⟩] "English" "French" =
      Except.ok [⟨"hello", ""⟩] ∧
    buildFillRequests [[("English", "hello"), ("French", " ")]] =
      Except.ok [⟨0, "English", "French", "hello"⟩] ∧
    (" " : String) ≠ "" :=
  ⟨by rfl, by rfl, by rfl, by decide⟩

/-- C6 (amended: a matched translation is written only when non-empty; a
missing match or an empty `translated_text` leaves the cell unchanged).
Fill mode: for every request, the output cell at `(rowIndex, targetLang)`
equals the first matching result's `translated_text` from its own language
pair's flattened results when that text is non-empty, else the original
cell.  Whole-table mode: every cell (hence every header cell too) is
rewritten through `translationMap.get(cell) || cell`. -/
theorem c6_reassembly :
    (∀ (provider : Provider) (rows : List Row) (fileName : String)
       (reqs : List TranslationRequest) (out : List Row),
       (∀ row ∈ rows, (rowKeys row).Nodup) →
       buildFillRequests rows = Except.ok reqs →
       processFileRows provider rows fileName = Except.ok out →
       ∀ r ∈ reqs, ∀ ts,
         prepareAndExecuteTranslations provider
           (reqs.filter (fun x => decide (reqKey x = reqKey r)))
           r.sourceLang r.targetLang = Except.ok ts →
         cellAt out r.rowIndex r.targetLang =
           matchRule ts r.text (cellAt rows r.rowIndex r.targetLang)) ∧
    (∀ (provider : Provider) (fileName lang : String) (rows : List (List String))
       (ts : List TranslationResult) (out : List (List String)),
       prepareAndExecuteTranslations provider (wholeTableRequests rows)
         "any language" lang = Except.ok ts →
       translateParsedRows provider fileName lang rows = Except.ok out →
       out = rows.map (fun row => row.map (applyMapCell (buildTranslationMap ts)))) := by
  constructor
  · intro provider rows fileName reqs out hkeys hb hok r hr ts hts
    have hre : reqs = fillPure 0 rows := buildFillRequests_ok rows reqs hb
    have hnd : (reqs.map (fun x => (x.rowIndex, x.targetLang))).Nodup := by
      rw [hre]
      exact fillPure_pairs_nodup rows 0 hkeys
    have hinj : ∀ x ∈ reqs, ∀ y ∈ reqs,
        (x.rowIndex, x.targetLang) = (y.rowIndex, y.targetLang) → x = y :=
      fun x hx y hy hxy => List.inj_on_of_nodup_map hnd hx hy hxy
    have hlt : r.rowIndex < rows.length := by
      have hrp : r ∈ fillPure 0 rows := by rw [← hre]; exact hr
      rcases (mem_fillPure rows 0 r).mp hrp with ⟨j, row, hj, hji, _⟩
      have hjlt : j < rows.length := by
        by_contra hge
        rw [List.getElem?_eq_none (Nat.le_of_not_lt hge)] at hj
        cases hj
      omega
    have hempty : rows.isEmpty = false := by
      cases rows with
      | nil => simp at hlt
      | cons w ws => rfl
    have hreqe : reqs.isEmpty = false := by
      cases reqs with
      | nil => cases hr
      | cons w ws => rfl
    simp only [processFileRows, hempty, Bool.false_eq_true, if_false, hb,
      except_bind_ok, hreqe] at hok
    rcases groupByLangPair_split reqs r hr with ⟨A, B, hsplit, hA, hB⟩
    rw [hsplit, processGroups_append] at hok
    cases hmidE : processGroups provider A rows with
    | error e => rw [hmidE] at hok; cases hok
    | ok mid =>
      rw [hmidE] at hok
      simp only [except_bind_ok, processGroups] at hok
      have hts2 : prepareAndExecuteTranslations provider
          (reqs.filter (fun x => decide (reqKey x = reqKey r)))
          (reqKey r).1 (reqKey r).2 = Except.ok ts := hts
      rw [hts2] at hok
      simp only [except_bind_ok] at hok
      have houtside : ∀ (hS : ∀ g ∈ A, g.1 ≠ reqKey r) (g)
          (hg : g ∈ A) (x : TranslationRequest), x ∈ g.2 →
          ¬(x.rowIndex = r.rowIndex ∧ x.targetLang = r.targetLang) := by
        intro hS g hg x hx hpair
        have hgfull : g ∈ groupByLangPair reqs := by
          rw [hsplit]
          exact List.mem_append_left _ hg
        have hxreqs : x ∈ reqs := groupByLangPair_sub reqs g hgfull x hx
        have hxr : x = r := hinj x hxreqs r hr (by rw [hpair.1, hpair.2])
        subst hxr
        exact hS g hg (groupByLangPair_key_of_mem reqs g hgfull x hx).symm
      have houtsideB : ∀ (g : (String × String) × List TranslationRequest)
          (hg : g ∈ B) (x : TranslationRequest), x ∈ g.2 →
          ¬(x.rowIndex = r.rowIndex ∧ x.targetLang = r.targetLang) := by
        intro g hg x hx hpair
        have hgfull : g ∈ groupByLangPair reqs := by
          rw [hsplit]
          exact List.mem_append_right _ (List.mem_cons_of_mem _ hg)
        have hxreqs : x ∈ reqs := groupByLangPair_sub reqs g hgfull x hx
        have hxr : x = r := hinj x hxreqs r hr (by rw [hpair.1, hpair.2])
        subst hxr
        exact hB g hg (groupByLangPair_key_of_mem reqs g hgfull x hx).symm
      have hmidcell : cellAt mid r.rowIndex r.targetLang =
          cellAt rows r.rowIndex r.targetLang :=
        cellAt_processGroups_notin provider A rows mid _ _
          (fun g hg x hx => houtside hA g hg x hx) hmidE
      have hmidlen : mid.length = rows.length :=
        processGroups_ok_length provider A rows mid hmidE
      have hrG : r ∈ reqs.filter (fun x => decide (reqKey x = reqKey r)) := by
        rw [List.mem_filter]
        exact ⟨hr, by simp⟩
      have hndG : ((reqs.filter (fun x => decide (reqKey x = reqKey r))).map
          (fun x => (x.rowIndex, x.targetLang))).Nodup :=
        List.Nodup.sublist (List.Sublist.map _ (List.filter_sublist _)) hnd
      have happly : cellAt (applyTranslations mid
            (reqs.filter (fun x => decide (reqKey x = reqKey r))) ts)
          r.rowIndex r.targetLang =
          matchRule ts r.text (cellAt mid r.rowIndex r.targetLang) :=
        cellAt_applyTranslations_self _ mid ts r hrG hndG (by rw [hmidlen]; exact hlt)
      have houtcell : cellAt out r.rowIndex r.targetLang =
          cellAt (applyTranslations mid
            (reqs.filter (fun x => decide (reqKey x = reqKey r))) ts)
          r.rowIndex r.targetLang :=
        cellAt_processGroups_notin provider B _ out _ _ houtsideB hok
      rw [houtcell, happly, hmidcell]
  · intro provider fileName lang rows ts out hts hok
    exact translateParsedRows_ok_shape provider fileName lang rows ts out hts hok

/-- Witness for C6 (amended) in fill mode at a concrete table with the echo
provider: the French cell receives the matched translation. -/
theorem c6_reassembly_witness :
    cellAt [[("English", "hello"), ("French", "hello")]] 0 "French" =
      matchRule [⟨"hello", "hello"⟩] "hello"
        (cellAt [[("English", "hello"), ("French", "")]] 0 "French") :=
  c6_reassembly.1 okProvider [[("English", "hello"), ("French", "")]] "t.csv"
    [⟨0, "English", "French", "hello"⟩]
    [[("English", "hello"), ("French", "hello")]]
    (by decide) (by rfl) (by rfl)
    ⟨0, "English", "French", "hello"⟩ (by decide)
    [⟨"hello", "hello"⟩] (by rfl)

/-- C9: `translateHandler` answers 400 exactly when `openaiFileIdRefs` is
missing/non-array or the empty array; for a non-empty array the response is
either 200 with all files or 500 with `{error: message}` — and any single
failing file forces the 500 outcome with no file payload at all (lines
374-399, `Promise.all` fail-fast at line 382). -/
theorem c9_http_boundary (parseCsvData : String → Except String (List Row))
    (fetcher : FileRef → Except String String) (provider : Provider)
    (body : ReqBody) :
    ((translateHandler parseCsvData fetcher provider body).status = 400 ↔
      (body.openaiFileIdRefs = RefsField.notArray ∨
       body.openaiFileIdRefs = RefsField.array [])) ∧
    (∀ refs, body.openaiFileIdRefs = RefsField.array refs → refs ≠ [] →
      ((∃ files,
          mapExcept (processOneFile parseCsvData fetcher provider body.language) refs =
            Except.ok files ∧
          translateHandler parseCsvData fetcher provider body =
            ⟨200, RespBody.files files⟩) ∨
       (∃ e,
          mapExcept (processOneFile parseCsvData fetcher provider body.language) refs =
            Except.error e ∧
          translateHandler parseCsvData fetcher provider body =
            ⟨500, RespBody.err (fallbackMsg e)⟩)) ∧
      (∀ fr ∈ refs, ∀ e,
         processOneFile parseCsvData fetcher provider body.language fr =
           Except.error e →
         (translateHandler parseCsvData fetcher provider body).status = 500 ∧
         ∀ files, (translateHandler parseCsvData fetcher provider body).body ≠
           RespBody.files files)) := by
  obtain ⟨refsField, language⟩ := body
  cases refsField with
  | notArray =>
    refine ⟨by simp [translateHandler], ?_⟩
    intro refs heq
    cases heq
  | array refs0 =>
    cases refs0 with
    | nil =>
      refine ⟨by simp [translateHandler], ?_⟩
      intro refs heq hne
      cases heq
      exact absurd rfl hne
    | cons fr0 rest0 =>
      constructor
      · cases hm : mapExcept (processOneFile parseCsvData fetcher provider language)
            (fr0 :: rest0) with
        | ok files => simp [translateHandler, hm]
        | error e => simp [translateHandler, hm]
      · intro refs heq hne
        cases heq
        constructor
        · cases hm : mapExcept (processOneFile parseCsvData fetcher provider language)
              (fr0 :: rest0) with
          | ok files =>
            exact Or.inl ⟨files, rfl, by simp [translateHandler, hm]⟩
          | error e =>
            exact Or.inr ⟨e, rfl, by simp [translateHandler, hm]⟩
        · intro fr hfr e hfe
          rcases mapExcept_error_of_mem
              (processOneFile parseCsvData fetcher provider language)
              (fr0 :: rest0) fr hfr e hfe with ⟨e2, he2⟩
          refine ⟨by simp [translateHandler, he2], ?_⟩
          intro files
          simp [translateHandler, he2]

/-- Witness for C9: a request whose single file fails (fill mode with an
always-failing provider) is answered with status 500. -/
theorem c9_http_boundary_witness :
    (translateHandler (fun _ => Except.ok [[("English", "hi"), ("French", "")]])
      (fun _ => Except.ok "raw") failProvider
      ⟨RefsField.array [⟨"a.csv", "u"⟩], none⟩).status = 500 :=
  (((c9_http_boundary (fun _ => Except.ok [[("English", "hi"), ("French", "")]])
      (fun _ => Except.ok "raw") failProvider
      ⟨RefsField.array [⟨"a.csv", "u"⟩], none⟩).2 [⟨"a.csv", "u"⟩] rfl
      (by decide)).2 ⟨"a.csv", "u"⟩ (by decide) "provider down" (by rfl)).1

/-- Counterexample to C10 as stated: the translation map contains an entry
for the header cell "cat" (with empty translated text), yet the output
header cell is not replaced by that entry — `translationMap.get(cell) ||
cell` (line 318) falls back to the original cell on an empty mapped
value. -/
theorem c10_loose_parsing_cex :
    translateParsedRows emptyTransProvider "t.csv" "French" [["cat"]] =
      Except.ok [["cat"]] ∧
    prepareAndExecuteTranslations emptyTransProvider (wholeTableRequests [["cat"]])
      "any language" "French" = Except.ok [⟨"cat", ""⟩] ∧
    mapGet (buildTranslationMap [⟨"cat", ""⟩]) "cat" = some "" ∧
    ("cat" : String) ≠ "" :=
  ⟨by rfl, by rfl, by rfl, by decide⟩

/-- C10 (amended: a mapped cell is replaced only when its mapped translation
is non-empty, identically for header and data cells): whole-table mode
splits on newlines and commas with no quote handling, no trimming and no
header handling; every non-blank first-line cell is collected into the
distinct texts sent to the provider; and the output's first row is the first
input row rewritten cell-by-cell through `translationMap.get(cell) || cell`,
exactly like every other row. -/
theorem c10_loose_parsing :
    (parseCsvLoose "a,\"b,c\"\nd" = [["a", "\"b", "c\""], ["d"]]) ∧
    (parseCsvLoose " a , b " = [[" a ", " b "]]) ∧
    (∀ (csv : String) (hd : List String) (rest : List (List String)),
       parseCsvLoose csv = hd :: rest →
       ∀ c ∈ hd, isBlank c = false → c ∈ wholeTableTexts (parseCsvLoose csv)) ∧
    (∀ (provider : Provider) (fileName lang : String) (rows : List (List String))
       (ts : List TranslationResult) (out : List (List String))
       (hd : List String) (rest : List (List String)),
       rows = hd :: rest →
       prepareAndExecuteTranslations provider (wholeTableRequests rows)
         "any language" lang = Except.ok ts →
       translateParsedRows provider fileName lang rows = Except.ok out →
       out = (hd.map (applyMapCell (buildTranslationMap ts))) ::
         rest.map (fun row => row.map (applyMapCell (buildTranslationMap ts)))) := by
  refine ⟨by rfl, by rfl, ?_, ?_⟩
  · intro csv hd rest hparse c hc hnb
    rw [hparse]
    unfold wholeTableTexts
    rw [mem_setDedup]
    rw [List.mem_filter]
    constructor
    · simp only [List.flatten_cons]
      exact List.mem_append_left _ hc
    · simp [hnb]
  · intro provider fileName lang rows ts out hd rest hrows hts hok
    subst hrows
    rw [translateParsedRows_ok_shape provider fileName lang _ ts out hts hok]
    rfl

/-- Witness for C10 (amended): the comma-split header of `"cat,dog"` has
both its cells collected into the distinct texts, and the output of an echo
translation maps the header row cell-wise. -/
theorem c10_loose_parsing_witness :
    ("cat" ∈ wholeTableTexts (parseCsvLoose "cat,dog")) ∧
    ([["cat", "dog"]] : List (List String)) =
      (["cat", "dog"].map (applyMapCell (buildTranslationMap
        [⟨"cat", "cat"⟩, ⟨"dog", "dog"⟩]))) ::
        ([] : List (List String)).map (fun row => row.map (applyMapCell
          (buildTranslationMap [⟨"cat", "cat"⟩, ⟨"dog", "dog"⟩]))) :=
  ⟨c10_loose_parsing.2.2.1 "cat,dog" ["cat", "dog"] [] (by rfl) "cat" (by decide)
      (by rfl),
   c10_loose_parsing.2.2.2 okProvider "t.csv" "French" [["cat", "dog"]]
     [⟨"cat", "cat"⟩, ⟨"dog", "dog"⟩] [["cat", "dog"]] ["cat", "dog"] []
     (by rfl) (by rfl) (by rfl)⟩
